import Mathlib

/-!
Verification of the obj-to-mesh converter (src/main.rs).

The Rust source is shallowly embedded: f64 scalars are modelled as rationals
(exact arithmetic; IEEE rounding of products is not modelled, but every claim
settled here is insensitive to it), machine integers as Nat with explicit
saturation where the source casts, panics as Option failure, and the HashMap
as an association list.  Where a claim hinges on IEEE special values, an
explicit datatype with the finite / infinite / NaN cases is used.
-/

/-- Largest finite f64 value, f64::MAX = (2^53 - 1) * 2^971, as a rational. -/
def f64MAX : ℚ := (2 ^ 53 - 1) * 2 ^ 971

/-- Smallest finite f64 value, f64::MIN = -f64::MAX. -/
def f64MIN : ℚ := -f64MAX

/-- Embeds fn pack_normalized(val: f64, max: u32) -> u32 (main.rs lines 17-19):
f64::ceil(val * max as f64) as u32.  The Rust float-to-integer cast saturates:
negative results become 0 (Int.toNat) and results above u32::MAX become
u32::MAX (the min).  No rejection of out-of-range inputs happens anywhere. -/
def pack_normalized (val : ℚ) (max : ℕ) : ℕ :=
  min (Int.toNat ⌈val * (max : ℚ)⌉) (2 ^ 32 - 1)

/-- A 3-component f64 vector, the wavefront_obj Vertex / Normal type. -/
structure Vertex where
  x : ℚ
  y : ℚ
  z : ℚ
deriving DecidableEq

/-- A texture coordinate, the wavefront_obj TVertex type (only x and y are
read by the converter). -/
structure TVertex where
  x : ℚ
  y : ℚ
deriving DecidableEq

/-- Embeds fn pack_i2_10_10_10(normal: Normal) -> u32 (main.rs lines 21-25). -/
def pack_i2_10_10_10 (normal : Vertex) : ℕ :=
  ((pack_normalized normal.x 511) <<< 0) |||
  ((pack_normalized normal.y 511) <<< 10) |||
  ((pack_normalized normal.z 511) <<< 20)

/-- Embeds the first while loop of pack_f16 (main.rs lines 30-32):
while x > 1. { x -= 1. }, on the finite fragment of f64. -/
def wrapDown (x : ℚ) : ℚ :=
  if 1 < x then wrapDown (x - 1) else x
termination_by Int.toNat ⌈x - 1⌉
decreasing_by
  have h1 : (0 : ℚ) < x - 1 := by linarith
  have h2 : (1 : ℤ) ≤ ⌈x - 1⌉ := by
    have := Int.ceil_pos.mpr h1
    omega
  have h3 : ⌈x - 1 - 1⌉ = ⌈x - 1⌉ - 1 := Int.ceil_sub_one (x - 1)
  rw [h3]
  omega

/-- Embeds the second while loop of pack_f16 (main.rs lines 33-35):
while x < -1. { x += 1. }, on the finite fragment of f64. -/
def wrapUp (x : ℚ) : ℚ :=
  if x < -1 then wrapUp (x + 1) else x
termination_by Int.toNat ⌈-1 - x⌉
decreasing_by
  have h1 : (0 : ℚ) < -1 - x := by linarith
  have h2 : (1 : ℤ) ≤ ⌈-1 - x⌉ := by
    have := Int.ceil_pos.mpr h1
    omega
  have h3 : ⌈-1 - (x + 1)⌉ = ⌈-1 - x⌉ - 1 := by
    have harg : (-1 : ℚ) - (x + 1) = -1 - x - 1 := by ring
    rw [harg]
    exact Int.ceil_sub_one (-1 - x)
  rw [h3]
  omega

/-- Round a rational to the nearest integer, ties to even: the IEEE default
rounding used by half::f16::from_f64. -/
def roundHalfEven (x : ℚ) : ℤ :=
  let n := ⌊x⌋
  let f := x - (n : ℚ)
  if 2 * f < 1 then n
  else if 1 < 2 * f then n + 1
  else if n % 2 = 0 then n else n + 1

/-- Round a rational to the nearest f64 value (53 significant bits, ties
to even): the result of every IEEE f64 operation is the exact value
rounded this way.  Subnormal granularity and overflow to infinity are not
modelled: the wrap loops only ever round v - 1 for v above 1 or v + 1 for
v below -1, so the rounded argument keeps magnitude strictly below the
starting value and, for any value a real f64 state can take there, stays
inside the normal finite range. -/
def flRound (x : ℚ) : ℚ :=
  if x = 0 then 0
  else
    ((roundHalfEven (x / (2 : ℚ) ^ (Int.log 2 |x| - 52)) : ℤ) : ℚ)
      * (2 : ℚ) ^ (Int.log 2 |x| - 52)

/-- Largest exponent e (at most 15) with 2^e below or equal the argument;
used to find the binary16 exponent field. -/
def findExp (a : ℚ) : ℤ :=
  (((List.range 30).map (fun i => (15 : ℤ) - (i : ℤ))).find?
    (fun e => decide ((2 : ℚ) ^ e ≤ a))).getD (-14)

/-- Model of half::f16::from_f64(x).as_bits() for finite rational x:
IEEE 754 binary16 encoding with round-to-nearest, ties to even.  Only the
identification pack_f16 = encoding-after-wraparound matters for the claims;
no claim inspects particular bit patterns. -/
def f16FromQ (x : ℚ) : ℕ :=
  if x = 0 then 0
  else
    let s : ℕ := if x < 0 then 32768 else 0
    let a := |x|
    if a < (2 : ℚ) ^ (-14 : ℤ) then
      s + (roundHalfEven (a * 2 ^ 24)).toNat
    else
      let e := findExp a
      let m := roundHalfEven (a * (2 : ℚ) ^ ((10 : ℤ) - e))
      if 2048 ≤ m then
        if 15 < e + 1 then s + 31744
        else s + (e + 1 + 15).toNat * 1024
      else s + (e + 15).toNat * 1024 + (m - 1024).toNat

/-- Embeds fn pack_f16(val: f64) -> u16 (main.rs lines 27-37): both wrap
loops, then conversion to binary16 bits. -/
def pack_f16 (val : ℚ) : ℕ :=
  f16FromQ (wrapUp (wrapDown val))

/-- The f64 value space with its IEEE special values, for claims about the
behaviour of the pack_f16 loops on non-finite inputs. -/
inductive F64 where
  | finite (v : ℚ)
  | posInf
  | negInf
  | nan
deriving DecidableEq

/-- The comparison x > 1.0 on f64 values: false for NaN. -/
def F64.gtOne : F64 → Bool
  | .finite v => decide (1 < v)
  | .posInf => true
  | .negInf => false
  | .nan => false

/-- The comparison x < -1.0 on f64 values: false for NaN. -/
def F64.ltNegOne : F64 → Bool
  | .finite v => decide (v < -1)
  | .posInf => false
  | .negInf => true
  | .nan => false

/-- x - 1.0 on f64 values: the exact difference rounded to the nearest
double (so the subtraction can absorb: for v large enough, ties-to-even
rounds v - 1 back to v); infinities and NaN are fixed points. -/
def F64.subOne : F64 → F64
  | .finite v => .finite (flRound (v - 1))
  | x => x

/-- x + 1.0 on f64 values: the exact sum rounded to the nearest double;
infinities and NaN are fixed points. -/
def F64.addOne : F64 → F64
  | .finite v => .finite (flRound (v + 1))
  | x => x

/-- Finiteness predicate on f64 values: false for both infinities and NaN. -/
def F64.isFinite : F64 → Bool
  | .finite _ => true
  | _ => false

/-- The first pack_f16 loop with explicit fuel: none models divergence
(fuel exhausted while the guard still holds). -/
def loopDown : ℕ → F64 → Option F64
  | 0, x => if x.gtOne then none else some x
  | n + 1, x => if x.gtOne then loopDown n x.subOne else some x

/-- The second pack_f16 loop with explicit fuel. -/
def loopUp : ℕ → F64 → Option F64
  | 0, x => if x.ltNegOne then none else some x
  | n + 1, x => if x.ltNegOne then loopUp n x.addOne else some x

/-- Both pack_f16 loops in sequence, with explicit fuel. -/
def wrapLoops (fuel : ℕ) (x : F64) : Option F64 :=
  (loopDown fuel x).bind (loopUp fuel)

/-- The attribute tuple of one triangle corner (position-index, optional
texcoord-index, optional normal-index): the wavefront_obj VTNIndex type. -/
abbrev VTNIndex := ℕ × Option ℕ × Option ℕ

/-- A primitive shape.  The converter supports only triangles and panics on
anything else (Line and Point primitives are collapsed into one case since
the converter treats them identically). -/
inductive Shape where
  | triangle (v1 v2 v3 : VTNIndex)
  | unsupported
deriving DecidableEq

/-- A geometry group of an object: only its shape list is read. -/
structure Geometry where
  shapes : List Shape
deriving DecidableEq

/-- The parsed source object: position / texcoord / normal arrays plus
geometry groups of shapes. -/
structure Object where
  vertices : List Vertex
  tex_vertices : List TVertex
  normals : List Vertex
  geometry : List Geometry
deriving DecidableEq

/-- The vertex attribute kinds (main.rs lines 39-45). -/
inductive Attribute where
  | Position
  | Normal
  | Tangent
  | Tex0
deriving DecidableEq

/-- Embeds fn size_of_attribute (main.rs lines 47-54): position is 3 f32,
normal and tangent one packed u32, tex0 two f16. -/
def size_of_attribute : Attribute → ℕ
  | .Position => 4 * 3
  | .Normal => 4
  | .Tangent => 4
  | .Tex0 => 2 * 2

/-- The negotiated vertex layout (main.rs lines 56-61). -/
structure VertexFieldOffsets where
  normal : Option ℕ
  tangent : Option ℕ
  tex0 : Option ℕ
deriving DecidableEq

/-- Embeds fn has_attribute(vtni, attr) (main.rs lines 63-71). -/
def has_attribute (vtni : VTNIndex) (attr : Attribute) : Bool :=
  match attr with
  | .Position => true
  | .Normal => vtni.2.2.isSome
  | .Tex0 => vtni.2.1.isSome
  | _ => false

/-- The shapes of all geometry groups of an object, in document order: the
two nested loops of has_all and Mesh::from_object traverse exactly this
flattened list. -/
def allShapes (obj : Object) : List Shape :=
  obj.geometry.flatMap (fun g => g.shapes)

/-- The loop body of fn has_all (main.rs lines 73-88) over the flattened
shape list: some false on the first triangle with a missing attribute,
none models the panic on an unsupported primitive, some true if the whole
list passes. -/
def hasAllShapes : List Shape → Attribute → Option Bool
  | [], _ => some true
  | Shape.triangle v1 v2 v3 :: rest, attr =>
    if !has_attribute v1 attr || !has_attribute v2 attr || !has_attribute v3 attr
    then some false
    else hasAllShapes rest attr
  | Shape.unsupported :: _, _ => none

/-- Embeds fn has_all(obj, attr) (main.rs lines 73-88). -/
def has_all (obj : Object) (attr : Attribute) : Option Bool :=
  hasAllShapes (allShapes obj) attr

/-- Embeds fn get_offset (main.rs lines 90-97); the Rust &mut offset is
modelled by returning the new offset alongside the entry of the field.  none
propagates the has_all panic. -/
def get_offset (obj : Object) (attr : Attribute) (offset : ℕ) :
    Option (Option ℕ × ℕ) :=
  match has_all obj attr with
  | none => none
  | some true => some (some offset, offset + size_of_attribute attr)
  | some false => some (none, offset)

/-- Embeds VertexFieldOffsets::from_object (main.rs lines 99-117): fields
are negotiated in the fixed order normal, tangent, tex0, accumulating byte
offsets after the mandatory position; tangent is enabled purely by the
with_tangent flag. -/
def VertexFieldOffsets.from_object (obj : Object) (with_tangent : Bool) :
    Option VertexFieldOffsets :=
  match get_offset obj Attribute.Normal (size_of_attribute Attribute.Position) with
  | none => none
  | some (normal, offset1) =>
    let tangentPair : Option ℕ × ℕ :=
      if with_tangent then (some offset1, offset1 + size_of_attribute Attribute.Tangent)
      else (none, offset1)
    match get_offset obj Attribute.Tex0 tangentPair.2 with
    | none => none
    | some (tex0, _) => some ⟨normal, tangentPair.1, tex0⟩

/-- An output vertex (main.rs lines 119-125). -/
structure GPUVertex where
  pos : Vertex
  normal : Option Vertex
  tangent : Option Vertex
  tex : Option TVertex
deriving DecidableEq

/-- Embeds GPUVertex::from_vtni_and_obj (main.rs lines 128-142).  The
source arrays are indexed with a default fallback: the input contract
(spec section 3) guarantees in-bounds indices, and no claim concerns
out-of-bounds source data, where Rust would panic. -/
def GPUVertex.from_vtni_and_obj (vtni : VTNIndex) (obj : Object)
    (format : VertexFieldOffsets) : GPUVertex :=
  { pos := obj.vertices.getD vtni.1 ⟨0, 0, 0⟩
    normal :=
      match vtni.2.2 with
      | some idx => if format.normal.isSome then some (obj.normals.getD idx ⟨0, 0, 0⟩) else none
      | none => none
    tangent := none
    tex :=
      match vtni.2.1 with
      | some idx => if format.tex0.isSome then some (obj.tex_vertices.getD idx ⟨0, 0⟩) else none
      | none => none }

/-- The mesh accumulator (main.rs lines 164-173); the HashMap is modelled
as an association list with most recent insertion first. -/
structure Mesh where
  vertices : List GPUVertex
  indices : List ℕ
  map : List (VTNIndex × ℕ)
  format : VertexFieldOffsets
  min : Vertex
  max : Vertex
deriving DecidableEq

/-- Embeds fn flt_min (main.rs lines 175-177). -/
def flt_min (a b : ℚ) : ℚ := if a < b then a else b

/-- Embeds fn flt_max (main.rs lines 179-181). -/
def flt_max (a b : ℚ) : ℚ := if a > b then a else b

/-- Embeds fn vert_min (main.rs lines 183-189). -/
def vert_min (a b : Vertex) : Vertex :=
  ⟨flt_min a.x b.x, flt_min a.y b.y, flt_min a.z b.z⟩

/-- Embeds fn vert_max (main.rs lines 191-197). -/
def vert_max (a b : Vertex) : Vertex :=
  ⟨flt_max a.x b.x, flt_max a.y b.y, flt_max a.z b.z⟩

/-- Embeds fn addmut (main.rs lines 199-203) as a pure sum. -/
def addV (dst src : Vertex) : Vertex :=
  ⟨dst.x + src.x, dst.y + src.y, dst.z + src.z⟩

/-- Embeds fn dot (main.rs lines 212-214). -/
def dotV (a b : Vertex) : ℚ := a.x * b.x + a.y * b.y + a.z * b.z

/-- Embeds fn sub (main.rs lines 216-222). -/
def subV (a b : Vertex) : Vertex := ⟨a.x - b.x, a.y - b.y, a.z - b.z⟩

/-- Embeds fn mul (main.rs lines 224-230). -/
def mulV (a : Vertex) (b : ℚ) : Vertex := ⟨a.x * b, a.y * b, a.z * b⟩

/-- Embeds Mesh::create_vertex (main.rs lines 314-325): returns the updated
mesh together with the index of the new vertex. -/
def Mesh.create_vertex (m : Mesh) (vtni : VTNIndex) (obj : Object)
    (format : VertexFieldOffsets) : Mesh × ℕ :=
  let idx := m.vertices.length
  let v := GPUVertex.from_vtni_and_obj vtni obj format
  ({ m with
      min := vert_min m.min v.pos
      max := vert_max m.max v.pos
      vertices := m.vertices ++ [v] }, idx)

/-- Embeds Mesh::add_index (main.rs lines 327-336): look the tuple up in
the dedup map; on a hit push the existing index, otherwise create a vertex,
record it in the map and push its new index. -/
def Mesh.add_index (m : Mesh) (vtni : VTNIndex) (obj : Object)
    (format : VertexFieldOffsets) : Mesh :=
  match List.lookup vtni m.map with
  | some idx => { m with indices := m.indices ++ [idx] }
  | none =>
    let p := m.create_vertex vtni obj format
    { p.1 with
        map := (vtni, p.2) :: p.1.map
        indices := p.1.indices ++ [p.2] }

/-- The initial mesh accumulator of Mesh::from_object (main.rs lines
235-242): empty lists and the sentinel bounds min = f64::MAX, max =
f64::MIN on every axis. -/
def initMesh (format : VertexFieldOffsets) : Mesh :=
  { vertices := []
    indices := []
    map := []
    format := format
    min := ⟨f64MAX, f64MAX, f64MAX⟩
    max := ⟨f64MIN, f64MIN, f64MIN⟩ }

/-- The triangle loop of Mesh::from_object (main.rs lines 244-255) as a
fold of add_index over the flattened corner list. -/
def processCorners (obj : Object) (format : VertexFieldOffsets)
    (m : Mesh) (cs : List VTNIndex) : Mesh :=
  cs.foldl (fun acc c => acc.add_index c obj format) m

/-- Extracts the triangles of a shape list in order; none models the panic
of Mesh::from_object on an unsupported primitive (main.rs line 252). -/
def trianglesOf : List Shape → Option (List (VTNIndex × VTNIndex × VTNIndex))
  | [] => some []
  | Shape.triangle v1 v2 v3 :: rest => (trianglesOf rest).map (fun l => (v1, v2, v3) :: l)
  | Shape.unsupported :: _ => none

/-- The per-triangle corner sequence (v1, v2, v3 of each triangle in
document order), as fed to add_index. -/
def cornersFromTris (tris : List (VTNIndex × VTNIndex × VTNIndex)) : List VTNIndex :=
  tris.flatMap (fun t => [t.1, t.2.1, t.2.2])

/-- The triangle corners of a shape list in document order. -/
def cornersOfShapes (l : List Shape) : List VTNIndex :=
  l.flatMap (fun s => match s with
    | Shape.triangle v1 v2 v3 => [v1, v2, v3]
    | Shape.unsupported => [])

/-- All triangle corners of an object in document order. -/
def cornersOf (obj : Object) : List VTNIndex :=
  cornersOfShapes (allShapes obj)

/-- Groups the index list into consecutive triples, as the while loop at
main.rs lines 262-300 reads it (the list length is always a multiple of
three, three indices per triangle). -/
def triplesOf : List ℕ → List (ℕ × ℕ × ℕ)
  | i1 :: i2 :: i3 :: rest => (i1, i2, i3) :: triplesOf rest
  | _ => []

/-- Default output vertex, used only as the getD fallback for list
indexing that the source performs unchecked. -/
def defaultGPUVertex : GPUVertex := ⟨⟨0, 0, 0⟩, none, none, none⟩

/-- The per-triangle tangent-direction estimate and accumulation (main.rs
lines 264-299): one sdir per triangle from edge vectors and texcoord
deltas, added onto all three corner slots of tan1 in sequence.  Note the
rational division 1/0 = 0 where IEEE would give an infinity; no settled
claim depends on degenerate-UV triangles. -/
def computeTan1 (m : Mesh) : List Vertex :=
  (triplesOf m.indices).foldl
    (fun tan t =>
      let i1 := t.1
      let i2 := t.2.1
      let i3 := t.2.2
      let v1 := (m.vertices.getD i1 defaultGPUVertex).pos
      let v2 := (m.vertices.getD i2 defaultGPUVertex).pos
      let v3 := (m.vertices.getD i3 defaultGPUVertex).pos
      let w1 := ((m.vertices.getD i1 defaultGPUVertex).tex).getD ⟨0, 0⟩
      let w2 := ((m.vertices.getD i2 defaultGPUVertex).tex).getD ⟨0, 0⟩
      let w3 := ((m.vertices.getD i3 defaultGPUVertex).tex).getD ⟨0, 0⟩
      let x1 := v2.x - v1.x
      let x2 := v3.x - v1.x
      let y1 := v2.y - v1.y
      let y2 := v3.y - v1.y
      let z1 := v2.z - v1.z
      let z2 := v3.z - v1.z
      let s1 := w2.x - w1.x
      let s2 := w3.x - w1.x
      let t1 := w2.y - w1.y
      let t2 := w3.y - w1.y
      let r := 1 / (s1 * t2 - s2 * t1)
      let sdir : Vertex := ⟨(t2 * x1 - t1 * x2) * r, (t2 * y1 - t1 * y2) * r, (t2 * z1 - t1 * z2) * r⟩
      let u1 := tan.set i1 (addV (tan.getD i1 ⟨0, 0, 0⟩) sdir)
      let u2 := u1.set i2 (addV (u1.getD i2 ⟨0, 0, 0⟩) sdir)
      u2.set i3 (addV (u2.getD i3 ⟨0, 0, 0⟩) sdir))
    (List.replicate m.vertices.length ⟨0, 0, 0⟩)

/-- The Gram-Schmidt orthogonalized accumulated tangent of main.rs line
307 before the final normalize call.  The normalize step multiplies by the
reciprocal square root of the squared length, which is irrational in
general and therefore not representable in this rational embedding; the
claims settled here depend only on which vertices receive a tangent and on
failure propagation, never on the magnitude of the stored tangent. -/
def gsOrtho (n t : Vertex) : Vertex :=
  subV t (mulV n (dotV n t))

/-- The tangent-generation pass of Mesh::from_object (main.rs lines
257-309).  The two unwrap calls are modelled as up-front checks: the first
loop unwraps the tex field of every vertex referenced by the index list,
the second unwraps the normal field of every vertex; any missing field is
a panic, modelled as none. -/
def tangentPass (m : Mesh) : Option Mesh :=
  if m.indices.all (fun i => ((m.vertices.getD i defaultGPUVertex).tex).isSome)
  then
    if m.vertices.all (fun v => v.normal.isSome)
    then
      let tan1 := computeTan1 m
      some { m with
        vertices := m.vertices.mapIdx
          (fun a v => { v with
            tangent := some (gsOrtho (v.normal.getD ⟨0, 0, 0⟩) (tan1.getD a ⟨0, 0, 0⟩)) }) }
    else none
  else none

/-- Embeds Mesh::from_object (main.rs lines 233-312): negotiate the
layout, weld all triangle corners, then optionally run the tangent pass;
none models any panic along the way. -/
def Mesh.from_object (obj : Object) (generate_tangents : Bool) : Option Mesh :=
  match VertexFieldOffsets.from_object obj generate_tangents with
  | none => none
  | some format =>
    match trianglesOf (allShapes obj) with
    | none => none
    | some tris =>
      let mesh := processCorners obj format (initMesh format) (cornersFromTris tris)
      if generate_tangents then tangentPass mesh else some mesh

/-- Embeds Mesh::get_index_size (main.rs lines 338-344): the match guards
n <= 0xff and n <= 0xffff on the vertex count. -/
def Mesh.get_index_size (m : Mesh) : ℕ :=
  if m.vertices.length ≤ 255 then 1
  else if m.vertices.length ≤ 65535 then 2
  else 4

/-- The bounding-box header fields written by convert_obj (main.rs lines
369-375): mesh.max then mesh.min, copied unconditionally from the
accumulator (generate_tangents = false path). -/
def convert_obj_bounds (obj : Object) : Option (Vertex × Vertex) :=
  (Mesh.from_object obj false).map (fun m => (m.max, m.min))

/-- The first-occurrence deduplication of a list: keeps each element once,
in the order of its first appearance.  This is the specification of the
order in which the welder creates output vertices. -/
def dedup (l : List VTNIndex) : List VTNIndex :=
  l.foldl (fun acc c => if c ∈ acc then acc else acc ++ [c]) []

/-- The position of the first occurrence of an element in a list. -/
def idxOfD : List VTNIndex → VTNIndex → ℕ
  | [], _ => 0
  | b :: t, a => if b = a then 0 else idxOfD t a + 1

/-- Modelled from the spec: the narrowest unsigned index width (1, 2 or 4
bytes) whose value range can represent the given maximum index value.
Stated to compare with Mesh.get_index_size, which the code computes from
the vertex count instead. -/
def spec_narrowest_index_width (maxIndex : ℕ) : ℕ :=
  if maxIndex ≤ 2 ^ 8 - 1 then 1
  else if maxIndex ≤ 2 ^ 16 - 1 then 2
  else 4

theorem idxOfD_lt_length {l : List VTNIndex} {a : VTNIndex} (h : a ∈ l) :
    idxOfD l a < l.length := by
  induction l with
  | nil => cases h
  | cons b t ih =>
    by_cases hb : b = a
    · simp [idxOfD, hb]
    · rcases List.mem_cons.mp h with h1 | h1
      · exact absurd h1.symm hb
      · simp only [idxOfD, if_neg hb, List.length_cons]
        exact Nat.succ_lt_succ (ih h1)

theorem idxOfD_append_left {l₁ : List VTNIndex} (l₂ : List VTNIndex)
    {a : VTNIndex} (h : a ∈ l₁) : idxOfD (l₁ ++ l₂) a = idxOfD l₁ a := by
  induction l₁ with
  | nil => cases h
  | cons b t ih =>
    by_cases hb : b = a
    · simp [idxOfD, hb]
    · rcases List.mem_cons.mp h with h1 | h1
      · exact absurd h1.symm hb
      · simp only [List.cons_append, idxOfD, if_neg hb, List.append_eq]
        rw [ih h1]

theorem idxOfD_append_self {l : List VTNIndex} {a : VTNIndex} (h : a ∉ l) :
    idxOfD (l ++ [a]) a = l.length := by
  induction l with
  | nil => simp [idxOfD]
  | cons b t ih =>
    have hb : b ≠ a := by
      intro hba
      exact h (hba ▸ List.mem_cons_self b t)
    simp only [List.cons_append, idxOfD, if_neg hb, List.length_cons, List.append_eq]
    rw [ih (fun hm => h (List.mem_cons_of_mem b hm))]

theorem getD_idxOfD (d : VTNIndex) {l : List VTNIndex} {a : VTNIndex} (h : a ∈ l) :
    l.getD (idxOfD l a) d = a := by
  induction l with
  | nil => cases h
  | cons b t ih =>
    by_cases hb : b = a
    · simp [idxOfD, hb]
    · rcases List.mem_cons.mp h with h1 | h1
      · exact absurd h1.symm hb
      · simp only [idxOfD, if_neg hb, List.getD_cons_succ]
        exact ih h1

theorem idxOfD_inj {l : List VTNIndex} {a b : VTNIndex} (ha : a ∈ l)
    (hb : b ∈ l) (h : idxOfD l a = idxOfD l b) : a = b := by
  have h1 := getD_idxOfD (0, none, none) ha
  have h2 := getD_idxOfD (0, none, none) hb
  rw [← h1, ← h2, h]

theorem dedup_append_singleton (l : List VTNIndex) (c : VTNIndex) :
    dedup (l ++ [c]) = if c ∈ dedup l then dedup l else dedup l ++ [c] := by
  simp [dedup, List.foldl_append]

theorem mem_dedup {l : List VTNIndex} {a : VTNIndex} : a ∈ dedup l ↔ a ∈ l := by
  induction l using List.reverseRecOn with
  | nil => simp [dedup]
  | append_singleton l c ih =>
    rw [dedup_append_singleton]
    by_cases hc : c ∈ dedup l
    · rw [if_pos hc]
      simp only [List.mem_append, List.mem_singleton]
      constructor
      · intro h
        exact Or.inl (ih.mp h)
      · rintro (h | h)
        · exact ih.mpr h
        · exact h ▸ hc
    · rw [if_neg hc]
      simp only [List.mem_append, List.mem_singleton]
      rw [ih]

theorem add_index_hit (obj : Object) (format : VertexFieldOffsets)
    {m : Mesh} {vtni : VTNIndex} {idx : ℕ}
    (h : List.lookup vtni m.map = some idx) :
    m.add_index vtni obj format = { m with indices := m.indices ++ [idx] } := by
  simp [Mesh.add_index, h]

theorem add_index_miss (obj : Object) (format : VertexFieldOffsets)
    {m : Mesh} {vtni : VTNIndex}
    (h : List.lookup vtni m.map = none) :
    m.add_index vtni obj format =
      { m with
          vertices := m.vertices ++ [GPUVertex.from_vtni_and_obj vtni obj format]
          indices := m.indices ++ [m.vertices.length]
          map := (vtni, m.vertices.length) :: m.map
          min := vert_min m.min (GPUVertex.from_vtni_and_obj vtni obj format).pos
          max := vert_max m.max (GPUVertex.from_vtni_and_obj vtni obj format).pos } := by
  simp [Mesh.add_index, h, Mesh.create_vertex]

/-- Characterization of the welding fold: starting from the fresh
accumulator, the output vertex list is the first-occurrence dedup of the
corner list mapped through vertex creation, every emitted corner index
is the position of its tuple in that dedup, and the dedup map tabulates
exactly that positioning. -/
theorem weld_spec (obj : Object) (format : VertexFieldOffsets) (cs : List VTNIndex) :
    (processCorners obj format (initMesh format) cs).vertices
        = (dedup cs).map (fun c => GPUVertex.from_vtni_and_obj c obj format)
      ∧ (processCorners obj format (initMesh format) cs).indices
        = cs.map (fun c => idxOfD (dedup cs) c)
      ∧ (∀ c : VTNIndex,
          List.lookup c (processCorners obj format (initMesh format) cs).map
            = if c ∈ dedup cs then some (idxOfD (dedup cs) c) else none)
      ∧ (processCorners obj format (initMesh format) cs).format = format := by
  induction cs using List.reverseRecOn with
  | nil =>
    refine ⟨rfl, rfl, ?_, rfl⟩
    intro c
    simp [processCorners, initMesh, dedup, List.lookup]
  | append_singleton cs c ih =>
    obtain ⟨ihv, ihi, ihm, ihf⟩ := ih
    set s := processCorners obj format (initMesh format) cs with hs
    have hstep : processCorners obj format (initMesh format) (cs ++ [c])
        = s.add_index c obj format := by
      rw [hs]
      simp [processCorners, List.foldl_append]
    have hlen : s.vertices.length = (dedup cs).length := by
      rw [ihv, List.length_map]
    by_cases hc : c ∈ dedup cs
    · have hlook : List.lookup c s.map = some (idxOfD (dedup cs) c) := by
        rw [ihm c, if_pos hc]
      have hded : dedup (cs ++ [c]) = dedup cs := by
        rw [dedup_append_singleton, if_pos hc]
      rw [hstep, add_index_hit obj format hlook, hded]
      refine ⟨ihv, ?_, ihm, ihf⟩
      rw [List.map_append]
      show s.indices ++ [idxOfD (dedup cs) c]
        = cs.map (fun x => idxOfD (dedup cs) x) ++ [c].map (fun x => idxOfD (dedup cs) x)
      rw [ihi, List.map_singleton]
    · have hlook : List.lookup c s.map = none := by
        rw [ihm c, if_neg hc]
      have hded : dedup (cs ++ [c]) = dedup cs ++ [c] := by
        rw [dedup_append_singleton, if_neg hc]
      have hmapcs : cs.map (fun x => idxOfD (dedup cs ++ [c]) x)
          = cs.map (fun x => idxOfD (dedup cs) x) := by
        apply List.map_congr_left
        intro a ha
        exact idxOfD_append_left [c] (mem_dedup.mpr ha)
      rw [hstep, add_index_miss obj format hlook, hded]
      refine ⟨?_, ?_, ?_, ihf⟩
      · show s.vertices ++ [GPUVertex.from_vtni_and_obj c obj format]
          = (dedup cs ++ [c]).map (fun x => GPUVertex.from_vtni_and_obj x obj format)
        rw [List.map_append, ihv, List.map_singleton]
      · show s.indices ++ [s.vertices.length]
          = (cs ++ [c]).map (fun x => idxOfD (dedup cs ++ [c]) x)
        rw [List.map_append, hmapcs, List.map_singleton, idxOfD_append_self hc,
          ihi, hlen]
      · intro c'
        show List.lookup c' ((c, s.vertices.length) :: s.map)
          = if c' ∈ dedup cs ++ [c] then some (idxOfD (dedup cs ++ [c]) c') else none
        by_cases hcc : c' = c
        · subst hcc
          simp only [List.lookup_cons_self]
          rw [if_pos (List.mem_append_right _ (List.mem_singleton_self c')),
            idxOfD_append_self hc, hlen]
        · have hbeq : (c' == c) = false := beq_eq_false_iff_ne.mpr hcc
          have hlc : List.lookup c' ((c, s.vertices.length) :: s.map)
              = List.lookup c' s.map := by
            simp [List.lookup, hbeq]
          rw [hlc, ihm c']
          by_cases hmem : c' ∈ dedup cs
          · rw [if_pos hmem,
              if_pos (List.mem_append_left _ hmem),
              idxOfD_append_left [c] hmem]
          · rw [if_neg hmem, if_neg]
            intro hmem2
            rcases List.mem_append.mp hmem2 with h1 | h1
            · exact hmem h1
            · exact hcc (List.mem_singleton.mp h1)

theorem cornersOfShapes_cons (s : Shape) (rest : List Shape) :
    cornersOfShapes (s :: rest)
      = (match s with
          | Shape.triangle v1 v2 v3 => [v1, v2, v3]
          | Shape.unsupported => []) ++ cornersOfShapes rest := by
  simp [cornersOfShapes]

theorem cornersFromTris_eq :
    ∀ (l : List Shape) (tris : List (VTNIndex × VTNIndex × VTNIndex)),
      trianglesOf l = some tris → cornersFromTris tris = cornersOfShapes l := by
  intro l
  induction l with
  | nil =>
    intro tris h
    simp only [trianglesOf, Option.some.injEq] at h
    subst h
    rfl
  | cons s rest ih =>
    intro tris h
    cases s with
    | triangle v1 v2 v3 =>
      simp only [trianglesOf] at h
      cases htris : trianglesOf rest with
      | none => rw [htris] at h; simp at h
      | some tris' =>
        rw [htris] at h
        simp only [Option.map_some', Option.some.injEq] at h
        subst h
        rw [cornersOfShapes_cons]
        simp only [cornersFromTris, List.flatMap_cons]
        rw [show tris'.flatMap (fun t => [t.1, t.2.1, t.2.2]) = cornersFromTris tris' from rfl,
          ih tris' htris]
    | unsupported => simp [trianglesOf] at h

theorem cornersFromTris_length (tris : List (VTNIndex × VTNIndex × VTNIndex)) :
    (cornersFromTris tris).length = 3 * tris.length := by
  induction tris with
  | nil => rfl
  | cons t rest ih =>
    have h1 : cornersFromTris (t :: rest) = [t.1, t.2.1, t.2.2] ++ cornersFromTris rest := by
      simp [cornersFromTris]
    rw [h1, List.length_append, ih, List.length_cons]
    simp
    omega

theorem from_object_false_char {obj : Object} {m : Mesh}
    (h : Mesh.from_object obj false = some m) :
    ∃ format tris,
      VertexFieldOffsets.from_object obj false = some format
      ∧ trianglesOf (allShapes obj) = some tris
      ∧ m = processCorners obj format (initMesh format) (cornersFromTris tris) := by
  unfold Mesh.from_object at h
  cases hf : VertexFieldOffsets.from_object obj false with
  | none => rw [hf] at h; cases h
  | some format =>
    rw [hf] at h
    cases ht : trianglesOf (allShapes obj) with
    | none => rw [ht] at h; cases h
    | some tris =>
      rw [ht] at h
      simp only [Bool.false_eq_true, if_false, Option.some.injEq] at h
      exact ⟨format, tris, rfl, rfl, h.symm⟩

theorem from_object_true_char {obj : Object} {m : Mesh}
    (h : Mesh.from_object obj true = some m) :
    ∃ format tris,
      VertexFieldOffsets.from_object obj true = some format
      ∧ trianglesOf (allShapes obj) = some tris
      ∧ tangentPass (processCorners obj format (initMesh format) (cornersFromTris tris))
          = some m := by
  unfold Mesh.from_object at h
  cases hf : VertexFieldOffsets.from_object obj true with
  | none => rw [hf] at h; cases h
  | some format =>
    rw [hf] at h
    cases ht : trianglesOf (allShapes obj) with
    | none => rw [ht] at h; cases h
    | some tris =>
      rw [ht] at h
      simp only [if_true] at h
      exact ⟨format, tris, rfl, rfl, h⟩

theorem tangentPass_char {w m : Mesh} (h : tangentPass w = some m) :
    m.indices = w.indices ∧ m.vertices.length = w.vertices.length
      ∧ m.format = w.format := by
  simp only [tangentPass] at h
  split_ifs at h
  obtain rfl := (Option.some.inj h).symm
  refine ⟨rfl, ?_, rfl⟩
  simp

theorem hasAllShapes_spec :
    ∀ (l : List Shape) (attr : Attribute) (b : Bool),
      hasAllShapes l attr = some b →
      (b = true ↔ ∀ c ∈ cornersOfShapes l, has_attribute c attr = true) := by
  intro l attr
  induction l with
  | nil =>
    intro b h
    simp only [hasAllShapes, Option.some.injEq] at h
    subst h
    simp [cornersOfShapes]
  | cons s rest ih =>
    intro b h
    cases s with
    | triangle v1 v2 v3 =>
      simp only [hasAllShapes] at h
      rw [cornersOfShapes_cons]
      by_cases hcond : (!has_attribute v1 attr || !has_attribute v2 attr
          || !has_attribute v3 attr) = true
      · rw [if_pos hcond] at h
        have hb : b = false := (Option.some.inj h).symm
        subst hb
        simp only [Bool.false_eq_true, false_iff]
        intro hall
        have h1 := hall v1 (by simp)
        have h2 := hall v2 (by simp)
        have h3 := hall v3 (by simp)
        simp [h1, h2, h3] at hcond
      · rw [if_neg hcond] at h
        rw [ih b h]
        simp only [Bool.or_eq_true, Bool.not_eq_true', Bool.not_eq_false] at hcond
        push_neg at hcond
        obtain ⟨⟨h1, h2⟩, h3⟩ := hcond
        rw [Bool.ne_false_iff] at h1 h2 h3
        constructor
        · intro hrest c hc
          simp only [List.cons_append, List.nil_append, List.mem_cons] at hc
          rcases hc with rfl | rfl | rfl | hc
          · exact h1
          · exact h2
          · exact h3
          · exact hrest c hc
        · intro hall c hc
          exact hall c (by simp [hc])
    | unsupported =>
      simp [hasAllShapes] at h

theorem VFO_char {obj : Object} {wt : Bool} {f : VertexFieldOffsets}
    (h : VertexFieldOffsets.from_object obj wt = some f) :
    (∃ bn, has_all obj Attribute.Normal = some bn ∧ f.normal.isSome = bn)
    ∧ (∃ bt, has_all obj Attribute.Tex0 = some bt ∧ f.tex0.isSome = bt)
    ∧ f.tangent.isSome = wt := by
  unfold VertexFieldOffsets.from_object get_offset at h
  cases hn : has_all obj Attribute.Normal with
  | none => rw [hn] at h; cases h
  | some bn =>
    rw [hn] at h
    cases ht : has_all obj Attribute.Tex0 with
    | none =>
      rw [ht] at h
      cases bn <;> simp at h
    | some bt =>
      rw [ht] at h
      cases bn <;> cases bt <;> cases wt <;>
        (simp only [Option.some.injEq] at h; subst h;
         exact ⟨⟨_, rfl, by simp⟩, ⟨_, rfl, by simp⟩, by simp⟩)

theorem wrapDown_step {q : ℚ} (h : 1 < q) : wrapDown q = wrapDown (q - 1) := by
  rw [wrapDown]
  exact if_pos h

theorem wrapDown_base {q : ℚ} (h : ¬ 1 < q) : wrapDown q = q := by
  rw [wrapDown]
  exact if_neg h

theorem wrapUp_step {q : ℚ} (h : q < -1) : wrapUp q = wrapUp (q + 1) := by
  rw [wrapUp]
  exact if_pos h

theorem wrapUp_base {q : ℚ} (h : ¬ q < -1) : wrapUp q = q := by
  rw [wrapUp]
  exact if_neg h

theorem ceil_measure_zero {q : ℚ} (h : Int.toNat ⌈q - 1⌉ = 0) : ¬ 1 < q := by
  intro h1
  have h2 : (0 : ℚ) < q - 1 := by linarith
  have h3 := Int.ceil_pos.mpr h2
  omega

theorem ceil_measure_succ {q : ℚ} {n : ℕ} (h : Int.toNat ⌈q - 1⌉ ≤ n + 1)
    (h1 : 1 < q) : Int.toNat ⌈q - 1 - 1⌉ ≤ n := by
  have h2 : (0 : ℚ) < q - 1 := by linarith
  have h3 := Int.ceil_pos.mpr h2
  have h4 : ⌈q - 1 - 1⌉ = ⌈q - 1⌉ - 1 := Int.ceil_sub_one (q - 1)
  omega

theorem wrapDown_le_one (q : ℚ) : wrapDown q ≤ 1 := by
  have key : ∀ (n : ℕ) (q : ℚ), Int.toNat ⌈q - 1⌉ ≤ n → wrapDown q ≤ 1 := by
    intro n
    induction n with
    | zero =>
      intro q hq
      have h := ceil_measure_zero (Nat.le_zero.mp hq)
      rw [wrapDown_base h]
      exact not_lt.mp h
    | succ n ih =>
      intro q hq
      by_cases h : 1 < q
      · rw [wrapDown_step h]
        exact ih (q - 1) (ceil_measure_succ hq h)
      · rw [wrapDown_base h]
        exact not_lt.mp h
  exact key (Int.toNat ⌈q - 1⌉) q le_rfl

theorem upceil_measure_zero {q : ℚ} (h : Int.toNat ⌈-1 - q⌉ = 0) : ¬ q < -1 := by
  intro h1
  have h2 : (0 : ℚ) < -1 - q := by linarith
  have h3 := Int.ceil_pos.mpr h2
  omega

theorem upceil_measure_succ {q : ℚ} {n : ℕ} (h : Int.toNat ⌈-1 - q⌉ ≤ n + 1)
    (h1 : q < -1) : Int.toNat ⌈-1 - (q + 1)⌉ ≤ n := by
  have h2 : (0 : ℚ) < -1 - q := by linarith
  have h3 := Int.ceil_pos.mpr h2
  have h4 : ⌈-1 - (q + 1)⌉ = ⌈-1 - q⌉ - 1 := by
    have harg : (-1 : ℚ) - (q + 1) = -1 - q - 1 := by ring
    rw [harg]
    exact Int.ceil_sub_one (-1 - q)
  omega

theorem wrapUp_ge_neg_one (q : ℚ) : -1 ≤ wrapUp q := by
  have key : ∀ (n : ℕ) (q : ℚ), Int.toNat ⌈-1 - q⌉ ≤ n → -1 ≤ wrapUp q := by
    intro n
    induction n with
    | zero =>
      intro q hq
      have h := upceil_measure_zero (Nat.le_zero.mp hq)
      rw [wrapUp_base h]
      exact not_lt.mp h
    | succ n ih =>
      intro q hq
      by_cases h : q < -1
      · rw [wrapUp_step h]
        exact ih (q + 1) (upceil_measure_succ hq h)
      · rw [wrapUp_base h]
        exact not_lt.mp h
  exact key (Int.toNat ⌈-1 - q⌉) q le_rfl

theorem wrapUp_le_one {q : ℚ} (hq : q ≤ 1) : wrapUp q ≤ 1 := by
  have key : ∀ (n : ℕ) (q : ℚ), Int.toNat ⌈-1 - q⌉ ≤ n → q ≤ 1 → wrapUp q ≤ 1 := by
    intro n
    induction n with
    | zero =>
      intro q hm h1
      rw [wrapUp_base (upceil_measure_zero (Nat.le_zero.mp hm))]
      exact h1
    | succ n ih =>
      intro q hm h1
      by_cases h : q < -1
      · rw [wrapUp_step h]
        exact ih (q + 1) (upceil_measure_succ hm h) (by linarith)
      · rw [wrapUp_base h]
        exact h1
  exact key (Int.toNat ⌈-1 - q⌉) q le_rfl hq

theorem roundHalfEven_close (x : ℚ) : |((roundHalfEven x : ℤ) : ℚ) - x| ≤ 1 / 2 := by
  have h0 : ((⌊x⌋ : ℤ) : ℚ) ≤ x := Int.floor_le x
  have h1 : x < ⌊x⌋ + 1 := Int.lt_floor_add_one x
  simp only [roundHalfEven]
  split_ifs with hc1 hc2 hc3 <;>
    (rw [abs_le]; constructor <;> push_cast <;> linarith)

theorem flRound_close_aux (x s : ℚ) (hs_pos : 0 < s) (hs_le : s ≤ 1) :
    |((roundHalfEven (x / s) : ℤ) : ℚ) * s - x| ≤ 1 / 2 := by
  have h1 := roundHalfEven_close (x / s)
  have hkey : ((roundHalfEven (x / s) : ℤ) : ℚ) * s - x
      = (((roundHalfEven (x / s) : ℤ) : ℚ) - x / s) * s := by
    rw [sub_mul, div_mul_cancel₀ x (ne_of_gt hs_pos)]
  rw [hkey, abs_mul, abs_of_pos hs_pos]
  calc |((roundHalfEven (x / s) : ℤ) : ℚ) - x / s| * s
      ≤ (1 / 2) * s := mul_le_mul_of_nonneg_right h1 (le_of_lt hs_pos)
    _ ≤ (1 / 2) * 1 := by linarith
    _ = 1 / 2 := by ring

/-- The f64 rounding moves a value of magnitude below 2^53 by at most one
half: in this range the spacing of doubles is at most 1. -/
theorem flRound_close {x : ℚ} (hx : x ≠ 0) (hlt : |x| < 2 ^ 53) :
    |flRound x - x| ≤ 1 / 2 := by
  have hpos : (0 : ℚ) < |x| := abs_pos.mpr hx
  have hle : ((2 : ℕ) : ℚ) ^ Int.log 2 |x| ≤ |x| :=
    Int.zpow_log_le_self (by norm_num) hpos
  have hcast : ((2 : ℕ) : ℚ) = (2 : ℚ) := by norm_num
  rw [hcast] at hle
  have heL : Int.log 2 |x| ≤ 52 := by
    by_contra hgt
    push_neg at hgt
    have h53 : (2 : ℚ) ^ (53 : ℤ) ≤ (2 : ℚ) ^ Int.log 2 |x| :=
      zpow_le_zpow_right₀ (by norm_num) (by omega)
    have hcmp : (2 : ℚ) ^ (53 : ℤ) ≤ |x| := le_trans h53 hle
    have h2 : (2 : ℚ) ^ (53 : ℤ) = 2 ^ (53 : ℕ) := by norm_num
    rw [h2] at hcmp
    linarith
  have hs_pos : (0 : ℚ) < (2 : ℚ) ^ (Int.log 2 |x| - 52) := zpow_pos (by norm_num) _
  have hs_le : (2 : ℚ) ^ (Int.log 2 |x| - 52) ≤ 1 :=
    zpow_le_one_of_nonpos₀ (by norm_num) (by omega)
  rw [flRound, if_neg hx]
  exact flRound_close_aux x _ hs_pos hs_le

theorem int_log_two_eq {x : ℚ} (hpos : 0 < x) {e : ℤ}
    (h1 : (2 : ℚ) ^ e ≤ x) (h2 : x < (2 : ℚ) ^ (e + 1)) : Int.log 2 x = e := by
  have hle : ((2 : ℕ) : ℚ) ^ Int.log 2 x ≤ x := Int.zpow_log_le_self (by norm_num) hpos
  have hlt : x < ((2 : ℕ) : ℚ) ^ (Int.log 2 x + 1) :=
    Int.lt_zpow_succ_log_self (by norm_num) x
  have hcast : ((2 : ℕ) : ℚ) = (2 : ℚ) := by norm_num
  rw [hcast] at hle hlt
  have a1 : Int.log 2 x < e + 1 :=
    (zpow_lt_zpow_iff_right₀ (by norm_num : (1 : ℚ) < 2)).mp (lt_of_le_of_lt hle h2)
  have a2 : e < Int.log 2 x + 1 :=
    (zpow_lt_zpow_iff_right₀ (by norm_num : (1 : ℚ) < 2)).mp (lt_of_le_of_lt h1 hlt)
  omega

/-- The decisive absorption: to subtract 1 from 2^53 + 4 the exact result
2^53 + 3 must round to a multiple of 2 (the spacing of doubles in
[2^53, 2^54)); it is a tie between 2^53 + 2 (odd mantissa) and 2^53 + 4
(even mantissa), and ties-to-even picks 2^53 + 4 back. -/
theorem flRound_absorb : flRound ((2 : ℚ) ^ 53 + 3) = 2 ^ 53 + 4 := by
  have hx : ((2 : ℚ) ^ 53 + 3) ≠ 0 := by positivity
  have habs : |(2 : ℚ) ^ 53 + 3| = 2 ^ 53 + 3 := abs_of_pos (by positivity)
  have hlog : Int.log 2 ((2 : ℚ) ^ 53 + 3) = 53 := by
    apply int_log_two_eq (by positivity)
    · have h2 : (2 : ℚ) ^ (53 : ℤ) = 2 ^ (53 : ℕ) := by norm_num
      rw [h2]
      linarith
    · have h2 : (2 : ℚ) ^ (53 + 1 : ℤ) = 2 ^ (54 : ℕ) := by norm_num
      rw [h2]
      norm_num
  rw [flRound, if_neg hx, habs, hlog]
  have hexp : ((53 : ℤ) - 52) = 1 := by norm_num
  rw [hexp, zpow_one]
  have harg : ((2 : ℚ) ^ 53 + 3) / 2 = 2 ^ 52 + 3 / 2 := by
    have h2 : (2 : ℚ) ^ 53 = 2 ^ 52 * 2 := by rw [← pow_succ]
    rw [h2]
    ring
  rw [harg]
  have hfloor : ⌊(2 : ℚ) ^ 52 + 3 / 2⌋ = 2 ^ 52 + 1 := by
    rw [Int.floor_eq_iff]
    constructor <;> push_cast <;> norm_num
  simp only [roundHalfEven]
  rw [hfloor]
  push_cast
  norm_num

/-- Safe-range termination of the first loop: from any value at most 2^53
the loop reaches, within the stated fuel, a value at most 1; each rounded
step loses at least one half, and the exit value either is the unchanged
input or lies above -1/2. -/
theorem loopDown_term :
    ∀ (k : ℕ) (v : ℚ), v ≤ 2 ^ 53 → Int.toNat ⌈2 * (v - 1)⌉ ≤ k →
      ∃ w, loopDown k (F64.finite v) = some (F64.finite w) ∧ w ≤ 1
        ∧ (w = v ∨ -(1 / 2 : ℚ) ≤ w) := by
  intro k
  induction k with
  | zero =>
    intro v hv hm
    have hng : ¬ 1 < v := by
      intro h1
      have h2 : (0 : ℚ) < 2 * (v - 1) := by linarith
      have h3 := Int.ceil_pos.mpr h2
      omega
    have hg : (F64.finite v).gtOne = false := by simp [F64.gtOne, hng]
    exact ⟨v, by simp [loopDown, hg], le_of_not_lt hng, Or.inl rfl⟩
  | succ k ih =>
    intro v hv hm
    by_cases h : 1 < v
    · have hg : (F64.finite v).gtOne = true := by simp [F64.gtOne, h]
      have hne : v - 1 ≠ 0 := by
        intro h0
        rw [sub_eq_zero] at h0
        rw [h0] at h
        exact lt_irrefl 1 h
      have habs : |v - 1| < 2 ^ 53 := by
        rw [abs_of_pos (by linarith)]
        linarith
      have hclose := flRound_close hne habs
      rw [abs_le] at hclose
      have hup : flRound (v - 1) ≤ v - 1 / 2 := by linarith [hclose.2]
      have hdown : v - 3 / 2 ≤ flRound (v - 1) := by linarith [hclose.1]
      have hv' : flRound (v - 1) ≤ 2 ^ 53 := by linarith
      have hm' : Int.toNat ⌈2 * (flRound (v - 1) - 1)⌉ ≤ k := by
        have hstep : 2 * (flRound (v - 1) - 1) ≤ 2 * (v - 1) - 1 := by linarith
        have hc1 : ⌈2 * (flRound (v - 1) - 1)⌉ ≤ ⌈2 * (v - 1) - 1⌉ := Int.ceil_mono hstep
        have hc2 : ⌈2 * (v - 1) - 1⌉ = ⌈2 * (v - 1)⌉ - 1 := Int.ceil_sub_one _
        have hc3 : (1 : ℤ) ≤ ⌈2 * (v - 1)⌉ := Int.ceil_pos.mpr (by linarith)
        omega
      obtain ⟨w, hw, hwle, hwc⟩ := ih (flRound (v - 1)) hv' hm'
      refine ⟨w, ?_, hwle, Or.inr ?_⟩
      · simp only [loopDown, hg, if_true]
        rw [show (F64.finite v).subOne = F64.finite (flRound (v - 1)) from rfl]
        exact hw
      · rcases hwc with rfl | hge
        · linarith
        · exact hge
    · have hg : (F64.finite v).gtOne = false := by simp [F64.gtOne, h]
      exact ⟨v, by simp [loopDown, hg], le_of_not_lt h, Or.inl rfl⟩

/-- Safe-range termination of the second loop, symmetric to the first. -/
theorem loopUp_term :
    ∀ (k : ℕ) (v : ℚ), -(2 ^ 53) ≤ v → Int.toNat ⌈2 * (-1 - v)⌉ ≤ k →
      ∃ w, loopUp k (F64.finite v) = some (F64.finite w) := by
  intro k
  induction k with
  | zero =>
    intro v hv hm
    have hng : ¬ v < -1 := by
      intro h1
      have h2 : (0 : ℚ) < 2 * (-1 - v) := by linarith
      have h3 := Int.ceil_pos.mpr h2
      omega
    have hg : (F64.finite v).ltNegOne = false := by simp [F64.ltNegOne, hng]
    exact ⟨v, by simp [loopUp, hg]⟩
  | succ k ih =>
    intro v hv hm
    by_cases h : v < -1
    · have hg : (F64.finite v).ltNegOne = true := by simp [F64.ltNegOne, h]
      have hne : v + 1 ≠ 0 := by
        intro h0
        have : v = -1 := by linarith [eq_neg_of_add_eq_zero_left h0]
        rw [this] at h
        exact lt_irrefl (-1) h
      have habs : |v + 1| < 2 ^ 53 := by
        rw [abs_of_neg (by linarith)]
        linarith
      have hclose := flRound_close hne habs
      rw [abs_le] at hclose
      have hup : flRound (v + 1) ≤ v + 3 / 2 := by linarith [hclose.2]
      have hdown : v + 1 / 2 ≤ flRound (v + 1) := by linarith [hclose.1]
      have hv' : -(2 ^ 53) ≤ flRound (v + 1) := by linarith
      have hm' : Int.toNat ⌈2 * (-1 - flRound (v + 1))⌉ ≤ k := by
        have hstep : 2 * (-1 - flRound (v + 1)) ≤ 2 * (-1 - v) - 1 := by linarith
        have hc1 : ⌈2 * (-1 - flRound (v + 1))⌉ ≤ ⌈2 * (-1 - v) - 1⌉ := Int.ceil_mono hstep
        have hc2 : ⌈2 * (-1 - v) - 1⌉ = ⌈2 * (-1 - v)⌉ - 1 := Int.ceil_sub_one _
        have hc3 : (1 : ℤ) ≤ ⌈2 * (-1 - v)⌉ := Int.ceil_pos.mpr (by linarith)
        omega
      obtain ⟨w, hw⟩ := ih (flRound (v + 1)) hv' hm'
      refine ⟨w, ?_⟩
      simp only [loopUp, hg, if_true]
      rw [show (F64.finite v).addOne = F64.finite (flRound (v + 1)) from rfl]
      exact hw
    · have hg : (F64.finite v).ltNegOne = false := by simp [F64.ltNegOne, h]
      exact ⟨v, by simp [loopUp, hg]⟩

/-- The first loop never terminates on the finite value 2^53 + 4: the
guard holds and the rounded subtraction absorbs, leaving the state
unchanged forever. -/
theorem loopDown_absorb (n : ℕ) :
    loopDown n (F64.finite ((2 : ℚ) ^ 53 + 4)) = none := by
  have hg : (F64.finite ((2 : ℚ) ^ 53 + 4)).gtOne = true := by
    simp only [F64.gtOne, decide_eq_true_eq]
    norm_num
  have hsub : (F64.finite ((2 : ℚ) ^ 53 + 4)).subOne
      = F64.finite ((2 : ℚ) ^ 53 + 4) := by
    show F64.finite (flRound ((2 : ℚ) ^ 53 + 4 - 1)) = _
    rw [show ((2 : ℚ) ^ 53 + 4 - 1) = (2 : ℚ) ^ 53 + 3 from by ring, flRound_absorb]
  induction n with
  | zero => simp [loopDown, hg]
  | succ n ih =>
    simp only [loopDown, hg, if_true, hsub]
    exact ih

theorem loopDown_posInf (n : ℕ) : loopDown n F64.posInf = none := by
  induction n with
  | zero => rfl
  | succ n ih =>
    simp only [loopDown, F64.gtOne, if_true]
    exact ih

theorem loopUp_negInf (n : ℕ) : loopUp n F64.negInf = none := by
  induction n with
  | zero => rfl
  | succ n ih =>
    simp only [loopUp, F64.ltNegOne, if_true]
    exact ih

theorem loopDown_negInf (n : ℕ) : loopDown n F64.negInf = some F64.negInf := by
  cases n <;> rfl

theorem loopDown_nan (n : ℕ) : loopDown n F64.nan = some F64.nan := by
  cases n <;> rfl

theorem loopUp_nan (n : ℕ) : loopUp n F64.nan = some F64.nan := by
  cases n <;> rfl

theorem option_eq_some_getD {α : Type} (o : Option α) (d : α)
    (h : o.isSome = true) : o = some (o.getD d) := by
  cases o with
  | none => cases h
  | some a => rfl

/-- Test object: one triangle, no texcoord or normal indices, first and
third corner share the same attribute tuple. -/
def objT : Object :=
  { vertices := [⟨0, 0, 0⟩, ⟨1, 0, 0⟩, ⟨0, 1, 0⟩]
    tex_vertices := []
    normals := []
    geometry := [⟨[Shape.triangle (0, none, none) (1, none, none) (0, none, none)]⟩] }

/-- Test object: one triangle with normal indices on every corner. -/
def objN : Object :=
  { vertices := [⟨0, 0, 0⟩, ⟨1, 0, 0⟩, ⟨0, 1, 0⟩]
    tex_vertices := []
    normals := [⟨0, 0, 1⟩]
    geometry := [⟨[Shape.triangle (0, none, some 0) (1, none, some 0) (2, none, some 0)]⟩] }

/-- Test object with no geometry at all: zero triangles, zero vertices. -/
def objEmpty : Object :=
  { vertices := [], tex_vertices := [], normals := [], geometry := [] }

/-- Fallback mesh for Option.getD projections in concrete witnesses. -/
def defaultMesh0 : Mesh := initMesh ⟨none, none, none⟩

/-- The mesh the converter builds from objT (no tangent generation). -/
def mT : Mesh := (Mesh.from_object objT false).getD defaultMesh0

/-- A mesh accumulator holding exactly 256 vertices. -/
def mesh256 : Mesh :=
  { vertices := List.replicate 256 defaultGPUVertex
    indices := []
    map := []
    format := ⟨none, none, none⟩
    min := ⟨0, 0, 0⟩
    max := ⟨0, 0, 0⟩ }

/-- A mesh accumulator holding exactly 255 vertices. -/
def mesh255 : Mesh :=
  { mesh256 with vertices := List.replicate 255 defaultGPUVertex }

/-- A mesh accumulator holding exactly 65536 vertices. -/
def mesh65536 : Mesh :=
  { mesh256 with vertices := List.replicate 65536 defaultGPUVertex }

/-- C1: vertex welding is correct.  For a converted object (no tangent
generation, all shapes triangles) the output vertex list is exactly the
first-occurrence dedup of the document-order corner list mapped through
vertex creation (so vertex order equals first-occurrence order and each
distinct tuple yields exactly one vertex), the index list has exactly 3
entries per input triangle, and two corners receive the same output index
if and only if their attribute tuples are equal. -/
theorem C1_welding_correct (obj : Object) (m : Mesh)
    (h : Mesh.from_object obj false = some m) :
    m.vertices = (dedup (cornersOf obj)).map
        (fun c => GPUVertex.from_vtni_and_obj c obj m.format)
      ∧ (∀ tris, trianglesOf (allShapes obj) = some tris →
          m.indices.length = 3 * tris.length)
      ∧ m.indices.length = (cornersOf obj).length
      ∧ (∀ j k, j < (cornersOf obj).length → k < (cornersOf obj).length →
          ((cornersOf obj).getD j (0, none, none) = (cornersOf obj).getD k (0, none, none)
            ↔ m.indices.getD j 0 = m.indices.getD k 0)) := by
  obtain ⟨format, tris, hf, ht, hm⟩ := from_object_false_char h
  have hc : cornersFromTris tris = cornersOf obj :=
    cornersFromTris_eq (allShapes obj) tris ht
  obtain ⟨hv, hi, _, hfmt⟩ := weld_spec obj format (cornersFromTris tris)
  rw [← hm] at hv hi hfmt
  subst hfmt
  rw [hc] at hv hi
  have hgetDj : ∀ j, j < (cornersOf obj).length →
      m.indices.getD j 0
        = idxOfD (dedup (cornersOf obj)) ((cornersOf obj).getD j (0, none, none)) := by
    intro j hj
    rw [List.getD_eq_getElem?_getD, hi, List.getElem?_map,
      List.getElem?_eq_getElem hj]
    simp only [Option.map_some', Option.getD_some, List.getD_eq_getElem?_getD,
      List.getElem?_eq_getElem hj]
  refine ⟨hv, ?_, ?_, ?_⟩
  · intro tris' ht'
    obtain rfl : tris' = tris := by
      rw [ht] at ht'
      exact (Option.some.inj ht').symm
    rw [hi, List.length_map, ← hc, cornersFromTris_length]
  · rw [hi, List.length_map]
  · intro j k hj hk
    rw [hgetDj j hj, hgetDj k hk]
    constructor
    · intro he
      rw [he]
    · intro he
      have hmj : (cornersOf obj).getD j (0, none, none) ∈ dedup (cornersOf obj) := by
        rw [mem_dedup, List.getD_eq_getElem _ _ hj]
        exact List.getElem_mem _
      have hmk : (cornersOf obj).getD k (0, none, none) ∈ dedup (cornersOf obj) := by
        rw [mem_dedup, List.getD_eq_getElem _ _ hk]
        exact List.getElem_mem _
      exact idxOfD_inj hmj hmk he

/-- C1 witness: in objT the first and third corner share their attribute
tuple and receive the same output index. -/
theorem C1_welding_witness : mT.indices.getD 0 0 = mT.indices.getD 2 0 := by
  have h := C1_welding_correct objT mT (option_eq_some_getD _ defaultMesh0 rfl)
  exact (h.2.2.2 0 2 (by decide) (by decide)).mp (by decide)

/-- Shared bridge: the negotiated tangent field is present exactly when the
generation flag is set, regardless of any per-corner data. -/
theorem tangent_iff_flag {obj : Object} {wt : Bool} {f : VertexFieldOffsets}
    (h : VertexFieldOffsets.from_object obj wt = some f) :
    f.tangent.isSome = true ↔ wt = true := by
  obtain ⟨_, _, htan⟩ := VFO_char h
  rw [htan]

/-- Shared bridge: the negotiated normal field is present iff every
triangle corner carries a normal index. -/
theorem normal_iff_all {obj : Object} {wt : Bool} {f : VertexFieldOffsets}
    (h : VertexFieldOffsets.from_object obj wt = some f) :
    (f.normal.isSome = true
      ↔ ∀ c ∈ cornersOf obj, has_attribute c Attribute.Normal = true) := by
  obtain ⟨⟨bn, hn, hfn⟩, _, _⟩ := VFO_char h
  rw [hfn]
  exact hasAllShapes_spec (allShapes obj) Attribute.Normal bn hn

/-- Shared bridge: the negotiated tex0 field is present iff every triangle
corner carries a texcoord index. -/
theorem tex0_iff_all {obj : Object} {wt : Bool} {f : VertexFieldOffsets}
    (h : VertexFieldOffsets.from_object obj wt = some f) :
    (f.tex0.isSome = true
      ↔ ∀ c ∈ cornersOf obj, has_attribute c Attribute.Tex0 = true) := by
  obtain ⟨_, ⟨bt, ht, hft⟩, _⟩ := VFO_char h
  rw [hft]
  exact hasAllShapes_spec (allShapes obj) Attribute.Tex0 bt ht

/-- C6: the attribute layout is strictly all-or-nothing.  For every object
whose layout negotiation succeeds, the normal (resp. texcoord) offset is
present iff every corner of every triangle supplies that attribute index;
the tangent offset is present exactly when the generation flag is set. -/
theorem C6_layout_all_or_nothing (obj : Object) (wt : Bool) (f : VertexFieldOffsets)
    (h : VertexFieldOffsets.from_object obj wt = some f) :
    (f.normal.isSome = true
        ↔ ∀ c ∈ cornersOf obj, has_attribute c Attribute.Normal = true)
      ∧ (f.tex0.isSome = true
        ↔ ∀ c ∈ cornersOf obj, has_attribute c Attribute.Tex0 = true)
      ∧ (f.tangent.isSome = true ↔ wt = true) :=
  ⟨normal_iff_all h, tex0_iff_all h, tangent_iff_flag h⟩

/-- C6 witness: objN supplies a normal index on every corner and its
negotiated layout indeed carries a normal offset. -/
theorem C6_layout_witness :
    (VertexFieldOffsets.mk (some 12) none none).normal.isSome = true
      ↔ ∀ c ∈ cornersOf objN, has_attribute c Attribute.Normal = true :=
  (C6_layout_all_or_nothing objN false (VertexFieldOffsets.mk (some 12) none none) rfl).1

/-- C7: index validity is an invariant of the mesh accumulator: every
index the converter emits refers to a valid slot of the output vertex
list. -/
theorem C7_index_validity (obj : Object) (gt : Bool) (m : Mesh)
    (h : Mesh.from_object obj gt = some m) :
    ∀ i ∈ m.indices, i < m.vertices.length := by
  have main : ∀ (format : VertexFieldOffsets) (cs : List VTNIndex),
      ∀ i ∈ (processCorners obj format (initMesh format) cs).indices,
        i < (processCorners obj format (initMesh format) cs).vertices.length := by
    intro format cs i hi
    obtain ⟨hv, hidx, _, _⟩ := weld_spec obj format cs
    rw [hidx] at hi
    rw [hv, List.length_map]
    obtain ⟨c, hc, rfl⟩ := List.mem_map.mp hi
    exact idxOfD_lt_length (mem_dedup.mpr hc)
  cases gt with
  | false =>
    obtain ⟨format, tris, _, _, hm⟩ := from_object_false_char h
    rw [hm]
    exact main format (cornersFromTris tris)
  | true =>
    obtain ⟨format, tris, _, _, hm⟩ := from_object_true_char h
    obtain ⟨hind, hlen, _⟩ := tangentPass_char hm
    rw [hind, hlen]
    exact main format (cornersFromTris tris)

/-- C7 witness: the first emitted index of the objT conversion is a valid
vertex-list slot. -/
theorem C7_index_validity_witness : mT.indices.getD 0 0 < mT.vertices.length := by
  have h := C7_index_validity objT false mT (option_eq_some_getD _ defaultMesh0 rfl)
  exact h _ (by decide)

/-- C5 counterexample: objT has no texcoord index on any corner, yet with
the generation flag set the negotiated layout enables tangent (offset 12)
while tex0 is absent, so tangent is NOT enabled only-if texcoord is; the
missing data is only hit later, when tangent generation itself panics
(modelled as failure of the whole conversion), not as a distinguishable
negotiation-time error. -/
theorem C5_tangent_gate_counterexample :
    VertexFieldOffsets.from_object objT true
        = some (VertexFieldOffsets.mk none (some 12) none)
      ∧ (VertexFieldOffsets.mk none (some 12) none).tangent.isSome = true
      ∧ (VertexFieldOffsets.mk none (some 12) none).tex0.isSome = false
      ∧ Mesh.from_object objT true = none :=
  ⟨rfl, rfl, rfl, rfl⟩

/-- C5 amended: when tangent generation is requested the layout enables
tangent unconditionally, regardless of texcoord presence; a missing
texcoord (or normal) on a contributing vertex makes the generation pass
itself fail fatally (a panic, modelled as none) instead of being refused
as a distinguishable error at format-negotiation time. -/
theorem C5_tangent_gate_amended :
    (∀ (obj : Object) (wt : Bool) (f : VertexFieldOffsets),
        VertexFieldOffsets.from_object obj wt = some f →
          (f.tangent.isSome = true ↔ wt = true))
      ∧ Mesh.from_object objT true = none :=
  ⟨fun _ _ _ h => tangent_iff_flag h, rfl⟩

/-- C5 witness: the amended layout rule applied at objT with the flag set:
the negotiated tangent field is present. -/
theorem C5_tangent_gate_witness :
    (VertexFieldOffsets.mk none (some 12) none).tangent.isSome = true :=
  (C5_tangent_gate_amended.1 objT true (VertexFieldOffsets.mk none (some 12) none) rfl).mpr rfl

/-- C2: evaluation of the normalized-integer packer at the inputs the claim names.
pack_normalized(1.0, 511) is 511 as claimed, but pack_normalized(-1.0, 511)
is 0 - the saturating float-to-u32 cast clamps the mathematical result
ceil(-1.0 x 511) = -511 to zero, so no minimum (negative) encoding is ever
produced - and pack_normalized(2.0, 511) returns 1022 normally: inputs
outside [-1, 1] are not rejected anywhere. -/
theorem C2_pack_normalized_eval :
    pack_normalized 1 511 = 511
      ∧ pack_normalized (-1) 511 = 0
      ∧ ⌈(-1 : ℚ) * (511 : ℕ)⌉ = -511
      ∧ pack_normalized 2 511 = 1022 := by
  refine ⟨?_, ?_, ?_, ?_⟩ <;> (norm_num [pack_normalized]; try decide)

/-- C3 counterexample: a mesh with 256 vertices has maximum index 255,
which one byte can represent (the spec-modelled narrowest width is 1), yet
get_index_size chooses 2 bytes: the code selects the width from the vertex
count, not from vertex_count - 1. -/
theorem C3_index_width_counterexample :
    Mesh.get_index_size mesh256 = 2
      ∧ spec_narrowest_index_width (256 - 1) = 1 := by
  constructor
  · simp only [Mesh.get_index_size, mesh256, List.length_replicate]
    norm_num
  · norm_num [spec_narrowest_index_width]

/-- C3 amended: the serializer picks the index width by thresholds on the
vertex count itself: 1 byte iff count at most 255, 2 bytes iff count in
256..65535, 4 bytes iff count at least 65536; in particular 255, 256 and
65536 vertices give 1, 2 and 4 bytes as the examples of the claim state. -/
theorem C3_index_width_amended :
    (∀ m : Mesh,
        (m.get_index_size = 1 ↔ m.vertices.length ≤ 255)
          ∧ (m.get_index_size = 2
              ↔ 256 ≤ m.vertices.length ∧ m.vertices.length ≤ 65535)
          ∧ (m.get_index_size = 4 ↔ 65536 ≤ m.vertices.length))
      ∧ Mesh.get_index_size mesh255 = 1
      ∧ Mesh.get_index_size mesh256 = 2
      ∧ Mesh.get_index_size mesh65536 = 4 := by
  have hgen : ∀ m : Mesh,
      (m.get_index_size = 1 ↔ m.vertices.length ≤ 255)
        ∧ (m.get_index_size = 2
            ↔ 256 ≤ m.vertices.length ∧ m.vertices.length ≤ 65535)
        ∧ (m.get_index_size = 4 ↔ 65536 ≤ m.vertices.length) := by
    intro m
    simp only [Mesh.get_index_size]
    split_ifs <;> omega
  refine ⟨hgen, ?_, ?_, ?_⟩
  · rw [(hgen mesh255).1]
    simp only [mesh255, mesh256, List.length_replicate]
    norm_num
  · rw [(hgen mesh256).2.1]
    simp only [mesh256, List.length_replicate]
    norm_num
  · rw [(hgen mesh65536).2.2]
    simp only [mesh65536, mesh256, List.length_replicate]
    norm_num

/-- C4: evaluation at the failing input of the bounding-box defect.  For
an object with zero triangles the accumulator never updates its bounds, so
the serializer copies the initial sentinels straight into the header:
the emitted maximum is f64::MIN on every axis and the emitted minimum is
f64::MAX on every axis, although zero vertices were produced.  (The code
seeds the bounds with the extreme finite values f64::MAX / f64::MIN, not
literal infinities; either way the sentinels leak.) -/
theorem C4_bbox_sentinel_eval :
    convert_obj_bounds objEmpty
        = some (Vertex.mk f64MIN f64MIN f64MIN, Vertex.mk f64MAX f64MAX f64MAX)
      ∧ (Mesh.from_object objEmpty false).map (fun m => m.vertices.length) = some 0 :=
  ⟨rfl, rfl⟩

/-- C8: the half-precision packer first reduces its input into [-1, 1] by
repeated unit wraparound steps and only then encodes: the reduced value
always lies in [-1, 1]; packing 1.5 gives exactly the bits of packing 0.5,
packing -1.5 exactly the bits of packing 0.5 - 1.0; and each loop step
changes the value by exactly one (minus one while above 1, plus one while
below -1) until it is in range. -/
theorem C8_f16_wraparound :
    (∀ q : ℚ, -1 ≤ wrapUp (wrapDown q) ∧ wrapUp (wrapDown q) ≤ 1)
      ∧ pack_f16 (3 / 2) = pack_f16 (1 / 2)
      ∧ pack_f16 (-(3 / 2)) = pack_f16 (1 / 2 - 1)
      ∧ (∀ q : ℚ, 1 < q → wrapDown q = wrapDown (q - 1))
      ∧ (∀ q : ℚ, ¬ 1 < q → wrapDown q = q)
      ∧ (∀ q : ℚ, q < -1 → wrapUp q = wrapUp (q + 1))
      ∧ (∀ q : ℚ, ¬ q < -1 → wrapUp q = q) := by
  have h32 : wrapDown (3 / 2 : ℚ) = 1 / 2 := by
    rw [wrapDown_step (by norm_num), show (3 / 2 : ℚ) - 1 = 1 / 2 by norm_num,
      wrapDown_base (by norm_num)]
  have h12 : wrapDown (1 / 2 : ℚ) = 1 / 2 := wrapDown_base (by norm_num)
  have hu12 : wrapUp (1 / 2 : ℚ) = 1 / 2 := wrapUp_base (by norm_num)
  have hn32 : wrapDown (-(3 / 2) : ℚ) = -(3 / 2) := wrapDown_base (by norm_num)
  have hun32 : wrapUp (-(3 / 2) : ℚ) = -(1 / 2) := by
    rw [wrapUp_step (by norm_num), show (-(3 / 2) : ℚ) + 1 = -(1 / 2) by norm_num,
      wrapUp_base (by norm_num)]
  have hd12 : wrapDown (1 / 2 - 1 : ℚ) = -(1 / 2) := by
    rw [show (1 / 2 - 1 : ℚ) = -(1 / 2) by norm_num]
    exact wrapDown_base (by norm_num)
  have hu12n : wrapUp (-(1 / 2) : ℚ) = -(1 / 2) := wrapUp_base (by norm_num)
  refine ⟨?_, ?_, ?_, fun q h => wrapDown_step h, fun q h => wrapDown_base h,
    fun q h => wrapUp_step h, fun q h => wrapUp_base h⟩
  · intro q
    exact ⟨wrapUp_ge_neg_one (wrapDown q), wrapUp_le_one (wrapDown_le_one q)⟩
  · unfold pack_f16
    rw [h32, h12]
  · unfold pack_f16
    rw [hn32, hun32, hd12, hu12n]

/-- C8 witness: both step rules applied at concrete inputs: one wrap step
from 2 reaches 1, one from -2 reaches -1, and the reduced value of 2 lies
in [-1, 1]. -/
theorem C8_f16_wraparound_witness :
    wrapDown 2 = wrapDown (2 - 1)
      ∧ wrapUp (-2) = wrapUp (-2 + 1)
      ∧ (-1 ≤ wrapUp (wrapDown 2) ∧ wrapUp (wrapDown 2) ≤ 1) :=
  ⟨C8_f16_wraparound.2.2.2.1 2 (by norm_num),
   C8_f16_wraparound.2.2.2.2.2.1 (-2) (by norm_num),
   C8_f16_wraparound.1 2⟩

/-- C10 counterexample: the original claim fails on both sides of the
finite / non-finite divide.  The finite input 2^53 + 4 makes no progress
(the rounded subtraction absorbs, so the first loop never exits, here
shown failing at fuel 100), while NaN is a non-finite input on which both
loops terminate at once (every comparison with NaN is false). -/
theorem C10_termination_counterexample :
    wrapLoops 100 (F64.finite ((2 : ℚ) ^ 53 + 4)) = none
      ∧ (F64.finite ((2 : ℚ) ^ 53 + 4)).isFinite = true
      ∧ wrapLoops 0 F64.nan = some F64.nan
      ∧ F64.nan.isFinite = false := by
  refine ⟨?_, rfl, rfl, rfl⟩
  rw [wrapLoops, loopDown_absorb]
  rfl

/-- C10 amended: the two wraparound loops of the half-precision packer
terminate for every input of magnitude at most 2^53 (each rounded unit
step makes progress of at least one half there); they diverge forever on
+infinity and on -infinity, and also on large finite inputs - at the
finite value 2^53 + 4 the ties-to-even rounding absorbs the subtraction,
leaving the value unchanged while the guard stays true - while NaN, though
non-finite, exits both loops immediately.  The hidden precondition is
therefore a magnitude bound on the input, not finiteness: finiteness is
neither sufficient (2^53 + 4) nor necessary (NaN) for termination. -/
theorem C10_loop_termination :
    (∀ v : ℚ, |v| ≤ 2 ^ 53 → ∃ (n : ℕ) (r : F64),
        wrapLoops n (F64.finite v) = some r)
      ∧ (∀ n : ℕ, wrapLoops n (F64.finite ((2 : ℚ) ^ 53 + 4)) = none)
      ∧ (∀ n : ℕ, wrapLoops n F64.posInf = none)
      ∧ (∀ n : ℕ, wrapLoops n F64.negInf = none)
      ∧ (∀ n : ℕ, wrapLoops n F64.nan = some F64.nan) := by
  refine ⟨?_, ?_, ?_, ?_, ?_⟩
  · intro v hv
    rw [abs_le] at hv
    refine ⟨max (Int.toNat ⌈2 * (v - 1)⌉) (Int.toNat ⌈2 * (-1 - v)⌉), ?_⟩
    obtain ⟨w, hw, hwle, hwc⟩ :=
      loopDown_term (max (Int.toNat ⌈2 * (v - 1)⌉) (Int.toNat ⌈2 * (-1 - v)⌉))
        v hv.2 (le_max_left _ _)
    have hwlo : -(2 ^ 53 : ℚ) ≤ w := by
      rcases hwc with rfl | hge
      · exact hv.1
      · linarith
    have hwm : Int.toNat ⌈2 * (-1 - w)⌉
        ≤ max (Int.toNat ⌈2 * (v - 1)⌉) (Int.toNat ⌈2 * (-1 - v)⌉) := by
      rcases hwc with rfl | hge
      · exact le_max_right _ _
      · have h1 : 2 * (-1 - w) ≤ 0 := by linarith
        have h2 : ⌈2 * (-1 - w)⌉ ≤ 0 := Int.ceil_le.mpr (by exact_mod_cast h1)
        omega
    obtain ⟨r, hr⟩ := loopUp_term _ w hwlo hwm
    exact ⟨F64.finite r, by rw [wrapLoops, hw]; exact hr⟩
  · intro n
    rw [wrapLoops, loopDown_absorb]
    rfl
  · intro n
    rw [wrapLoops, loopDown_posInf]
    rfl
  · intro n
    rw [wrapLoops, loopDown_negInf]
    exact loopUp_negInf n
  · intro n
    rw [wrapLoops, loopDown_nan]
    exact loopUp_nan n

/-- C10 witness: the safe-range termination applied at the concrete input
3, whose magnitude is within the bound. -/
theorem C10_loop_termination_witness :
    ∃ (n : ℕ) (r : F64), wrapLoops n (F64.finite 3) = some r :=
  C10_loop_termination.1 3 (by norm_num)
